import Mathlib

/-!
Verification of the NIFTY intraday backtesting pipeline (src/Rust/main.rs).

The Rust source is shallowly embedded:
* `chrono::NaiveTime` is represented by its number of seconds since midnight
  (a `Nat`), which is chrono's own internal representation; `NaiveDate` by an
  abstract day number (a `Nat`), ordered as dates are.
* `f64` prices and volumes are represented by exact rationals `ℚ`.
* The per-date `HashMap` used by `identify_trades` is modelled by an explicit
  list of keys (`datesOf`) together with a key-indexed lookup (`windowBars`);
  the nondeterministic hash iteration order is exposed as a parameter of
  `identify_trades_order` so that order-independence can be proved.
* The `HashMap` of `identify_signal_candles` is modelled as a lookup function
  built by folding `insert` over the data, as the Rust code does.
-/

namespace ORB

/-- `chrono::NaiveDateTime`: an (abstract) day number plus the time of day in
seconds since midnight. Ordered lexicographically, as chrono orders it. -/
structure DateTime where
  date : Nat
  time : Nat
  deriving DecidableEq

instance : Inhabited DateTime := ⟨⟨0, 0⟩⟩

/-- `NaiveDateTime` comparison (`<=`): lexicographic on (date, time). -/
def DateTime.le (a b : DateTime) : Prop :=
  a.date < b.date ∨ (a.date = b.date ∧ a.time ≤ b.time)

instance : DecidableRel DateTime.le := fun a b =>
  inferInstanceAs (Decidable (a.date < b.date ∨ (a.date = b.date ∧ a.time ≤ b.time)))

/-- `struct OhlcBar` from the source. The Rust field `open` is called `open_`
here because `open` is a Lean keyword; every other field keeps its name. -/
structure OhlcBar where
  datetime : DateTime
  date : Nat
  time : Nat
  open_ : ℚ
  high : ℚ
  low : ℚ
  close : ℚ
  volume : ℚ
  candle_type : Option String
  candle_val : Option ℚ
  signal : ℤ
  deriving DecidableEq

instance : Inhabited OhlcBar := ⟨⟨default, 0, 0, 0, 0, 0, 0, 0, none, none, 0⟩⟩

/-- `round_to_5min`: keep the hour, floor the minute to a multiple of 5, zero
the second. On seconds-since-midnight: `minute = t / 60 % 60`, and the result
is `hour * 3600 + (minute / 5 * 5) * 60`. -/
def round_to_5min (dt : DateTime) : DateTime :=
  { date := dt.date
    time := dt.time / 3600 * 3600 + dt.time / 60 % 60 / 5 * 5 * 60 }

/-- `aggregate_bars`: collapse one bucket group into a single bar.  The Rust
high is `fold(0.0, f64::max)` (seed 0!) and the low is `fold(INFINITY, f64::min)`;
on a nonempty list the latter equals a fold of `min` seeded with the first low,
which is how the infinite seed is rendered here (the function is only applied
to nonempty groups). -/
def aggregate_bars (bars : List OhlcBar) : OhlcBar :=
  let first := bars.headI
  let last := bars.getLastI
  { datetime := round_to_5min first.datetime
    date := first.date
    time := (round_to_5min first.datetime).time
    open_ := first.open_
    high := bars.foldl (fun a b => max a b.high) 0
    low := match bars with
           | [] => 0
           | b :: rest => rest.foldl (fun a x => min a x.low) b.low
    close := last.close
    volume := (bars.map (·.volume)).sum
    candle_type := none
    candle_val := none
    signal := 0 }

/-- The grouping loop of `create_5min_bars`: state is the current bucket start
(`cur`) and the current group, ticks are consumed left to right; a change of
bucket start flushes the current group through `aggregate_bars`. -/
def create_5min_bars_go (cur : Option DateTime) (group : List OhlcBar) :
    List OhlcBar → List OhlcBar
  | [] => if group.isEmpty then [] else [aggregate_bars group]
  | bar :: rest =>
    let s := round_to_5min bar.datetime
    let cur' := match cur with
                | none => some s
                | some c => some c
    if cur' = some s then
      create_5min_bars_go cur' (group ++ [bar]) rest
    else
      (if group.isEmpty then [] else [aggregate_bars group]) ++
        create_5min_bars_go (some s) [bar] rest

/-- `create_5min_bars`. -/
def create_5min_bars (data : List OhlcBar) : List OhlcBar :=
  create_5min_bars_go none [] data

/-- Modelled from the spec: "high = max of constituent highs" — the true
maximum of a nonempty list of rationals, used to compare the emitted high
against the spec's wording. -/
def spec_max (l : List ℚ) : ℚ :=
  match l with
  | [] => 0
  | x :: xs => xs.foldl max x

/-- The signal-candle time of day, `09:25:00`, in seconds since midnight. -/
def target_time : Nat := 9 * 3600 + 25 * 60

/-- The (candle_type, candle_val) pair inserted by `identify_signal_candles`
for a bar found at the target time: `"bullish"` with the bar's high if
`close > open`, else `"bearish"` with the bar's low. -/
def classify (bar : OhlcBar) : String × ℚ :=
  (if bar.open_ < bar.close then "bullish" else "bearish",
   if bar.open_ < bar.close then bar.high else bar.low)

/-- One `signal_map.insert` step of `identify_signal_candles`: a bar at the
target time overwrites the entry for its date. -/
def signal_map_step (m : Nat → Option (String × ℚ)) (bar : OhlcBar) :
    Nat → Option (String × ℚ) :=
  if bar.time = target_time then
    fun d => if d = bar.date then some (classify bar) else m d
  else m

/-- The `signal_map: HashMap<NaiveDate, (String, f64)>` built by
`identify_signal_candles`, as a lookup function. -/
def signal_map (data : List OhlcBar) : Nat → Option (String × ℚ) :=
  data.foldl signal_map_step (fun _ => none)

/-- The body of the second loop of `identify_signal_candles`: copy the date's
classification (if any) onto the bar. -/
def apply_signal_info (data : List OhlcBar) (bar : OhlcBar) : OhlcBar :=
  match signal_map data bar.date with
  | some (t, v) => { bar with candle_type := some t, candle_val := some v }
  | none => bar

/-- `identify_signal_candles`: broadcast each date's classification to every
bar of that date (bars of unclassified dates are untouched). -/
def identify_signal_candles (data : List OhlcBar) : List OhlcBar :=
  data.map (apply_signal_info data)

/-- The loop body of `generate_trading_signals`: on a classified bar,
overwrite the signal (`-1` bearish breakdown, `1` bullish breakout, `0`
otherwise); an unclassified bar is untouched. -/
def assign_signal (bar : OhlcBar) : OhlcBar :=
  match bar.candle_type, bar.candle_val with
  | some ct, some cv =>
    { bar with signal :=
        if ct = "bearish" ∧ bar.close < cv then -1
        else if ct = "bullish" ∧ cv < bar.close then 1
        else 0 }
  | _, _ => bar

/-- `generate_trading_signals`. -/
def generate_trading_signals (data : List OhlcBar) : List OhlcBar :=
  data.map assign_signal

/-- Trading-window start, `09:30:00`. -/
def start_time : Nat := 9 * 3600 + 30 * 60

/-- Trading-window end, `15:15:00`. -/
def end_time : Nat := 15 * 3600 + 15 * 60

/-- Exit time, `15:15:00`. -/
def exit_time : Nat := 15 * 3600 + 15 * 60

/-- The window filter of `identify_trades` (`start_time <= time <= end_time`). -/
def in_window (b : OhlcBar) : Bool :=
  decide (start_time ≤ b.time) && decide (b.time ≤ end_time)

/-- The `Vec<&OhlcBar>` held by the per-date `HashMap` of `identify_trades`
for key `d`: the in-window bars of date `d`, in data order. -/
def windowBars (data : List OhlcBar) (d : Nat) : List OhlcBar :=
  data.filter (fun b => decide (b.date = d) && in_window b)

/-- `struct Trade` from the source. -/
structure Trade where
  date : Nat
  entry_time : DateTime
  entry_price : ℚ
  exit_time : DateTime
  exit_price : ℚ
  signal : ℤ
  gross_pnl : ℚ
  net_pnl : ℚ
  deriving DecidableEq

/-- The body of the per-date loop of `identify_trades`: first nonzero-signal
bar is the entry; the bar at `exit_time` (or the last window bar) is the exit;
P&L and the proportional transaction cost follow the source formulas. -/
def tradeForDate (data : List OhlcBar) (d : Nat) : Option Trade :=
  let day_bars := windowBars data d
  match day_bars.find? (fun b => decide (b.signal ≠ 0)) with
  | none => none
  | some entry_bar =>
    let exit_bar := (day_bars.find? (fun b => decide (b.time = exit_time))).getD
      day_bars.getLastI
    let gross_pnl :=
      if entry_bar.signal = -1 then entry_bar.close - exit_bar.open_
      else exit_bar.open_ - entry_bar.close
    let transaction_cost := |exit_bar.open_ - entry_bar.close| * (0.0012 : ℚ)
    some { date := d
           entry_time := entry_bar.datetime
           entry_price := entry_bar.close
           exit_time := exit_bar.datetime
           exit_price := exit_bar.open_
           signal := entry_bar.signal
           gross_pnl := gross_pnl
           net_pnl := gross_pnl - transaction_cost }

/-- The key set of the per-date `HashMap` of `identify_trades`: the dates that
have at least one in-window bar, without duplicates. -/
def datesOf (data : List OhlcBar) : List Nat :=
  ((data.filter in_window).map (·.date)).dedup

/-- The comparison used by `trades.sort_by(|a, b| a.date.cmp(&b.date))`. -/
def trade_le (a b : Trade) : Prop := a.date ≤ b.date

instance : DecidableRel trade_le := fun a b =>
  inferInstanceAs (Decidable (a.date ≤ b.date))

instance : IsTotal Trade trade_le := ⟨fun a b => Nat.le_total a.date b.date⟩

instance : IsTrans Trade trade_le := ⟨fun _ _ _ h₁ h₂ => Nat.le_trans h₁ h₂⟩

/-- `identify_trades`, with the `HashMap` iteration order over the dates made
explicit as `order`; the result is sorted by date, as the source does last. -/
def identify_trades_order (order : List Nat) (data : List OhlcBar) : List Trade :=
  List.insertionSort trade_le (order.filterMap (tradeForDate data))

/-- `identify_trades`, run with the canonical date order (first-occurrence
order is irrelevant: see the determinism theorem). -/
def identify_trades (data : List OhlcBar) : List Trade :=
  identify_trades_order (datesOf data) data

/-- `struct PerformanceMetrics` from the source.  All fields are exact `ℚ`
except `sharpe_ratio`, which divides by the real square root of the variance. -/
structure PerformanceMetrics where
  total_pnl : ℚ
  max_drawdown : ℚ
  sharpe_ratio : ℝ
  calmar_ratio : ℚ
  win_rate : ℚ
  avg_win : ℚ
  avg_loss : ℚ
  total_trades : Nat

/-- `calculate_performance_metrics`.  The drawdown loop is the fold over
`(cum_pnl, running_max, max_drawdown)` seeded `(0, 0, 0)` exactly as in the
source. -/
noncomputable def calculate_performance_metrics (trades : List Trade) :
    PerformanceMetrics :=
  if trades = [] then
    { total_pnl := 0, max_drawdown := 0, sharpe_ratio := 0, calmar_ratio := 0
      win_rate := 0, avg_win := 0, avg_loss := 0, total_trades := 0 }
  else
    let total_pnl : ℚ := (trades.map (·.net_pnl)).sum
    let dd := trades.foldl
      (fun (s : ℚ × ℚ × ℚ) t =>
        let cum := s.1 + t.net_pnl
        let rm := max s.2.1 cum
        (cum, rm, min s.2.2 (cum - rm)))
      (0, 0, 0)
    let max_drawdown := dd.2.2
    let n : ℚ := (trades.length : ℚ)
    let mean_pnl := total_pnl / n
    let variance : ℚ := ((trades.map (·.net_pnl)).map (fun x => (x - mean_pnl) ^ 2)).sum / n
    let std_dev : ℝ := Real.sqrt (variance : ℝ)
    let sharpe : ℝ := if std_dev ≠ 0 then (mean_pnl : ℝ) / std_dev else 0
    let calmar : ℚ := if max_drawdown ≠ 0 then mean_pnl / |max_drawdown| else 0
    let winning := trades.filter (fun t => decide (0 < t.net_pnl))
    let losing := trades.filter (fun t => decide (t.net_pnl < 0))
    let win_rate := ((winning.length : ℚ) / n) * 100
    let avg_win := if winning.isEmpty then 0
      else (winning.map (·.net_pnl)).sum / (winning.length : ℚ)
    let avg_loss := if losing.isEmpty then 0
      else (losing.map (·.net_pnl)).sum / (losing.length : ℚ)
    { total_pnl := total_pnl, max_drawdown := max_drawdown, sharpe_ratio := sharpe
      calmar_ratio := calmar, win_rate := win_rate, avg_win := avg_win
      avg_loss := avg_loss, total_trades := trades.length }

/-- Modelled from the spec: the list of per-step drawdowns, "cumulative net
P&L minus the running maximum of cumulative net P&L seen so far" (the running
maximum starts from the flat position 0, as the cumulative P&L does). -/
def spec_drawdowns (cum rm : ℚ) : List ℚ → List ℚ
  | [] => []
  | x :: xs => (cum + x - max rm (cum + x)) :: spec_drawdowns (cum + x) (max rm (cum + x)) xs

/-- Test-data constructor: a raw tick whose redundant `date`/`time` fields
agree with its `datetime`, no classification, signal 0. -/
def mkBar (d t : Nat) (o h l c v : ℚ) : OhlcBar :=
  { datetime := ⟨d, t⟩, date := d, time := t, open_ := o, high := h, low := l,
    close := c, volume := v, candle_type := none, candle_val := none, signal := 0 }

/-- Concrete two-trade fixture used by the performance witnesses. -/
def wTrades : List Trade :=
  [{ date := 1, entry_time := ⟨1, 34200⟩, entry_price := 10, exit_time := ⟨1, 54900⟩,
     exit_price := 9, signal := 1, gross_pnl := -1, net_pnl := -1 },
   { date := 2, entry_time := ⟨2, 34200⟩, entry_price := 10, exit_time := ⟨2, 54900⟩,
     exit_price := 12, signal := 1, gross_pnl := 2, net_pnl := 2 }]

/-- Modelled from the spec: mean = total net P&L / n. -/
def spec_mean (trades : List Trade) : ℚ :=
  (trades.map (·.net_pnl)).sum / (trades.length : ℚ)

/-- Modelled from the spec: population variance (divide by n) of the
per-trade net P&L. -/
def spec_variance (trades : List Trade) : ℚ :=
  ((trades.map (·.net_pnl)).map (fun x => (x - spec_mean trades) ^ 2)).sum
    / (trades.length : ℚ)

/-- Concrete data for the signal-detection witness: date 1 has a bullish
09:25 bar (reference high 20) and later bars; date 2 has no 09:25 bar. -/
def wSignalData : List OhlcBar :=
  [mkBar 1 33900 10 20 9 15 1, mkBar 1 34200 16 26 15 25 1,
   mkBar 2 34200 16 26 15 25 1]

/-- Concrete fixture: one date with a signal-1 bar at 09:30 and a plain bar
at 15:15, both inside the trading window. -/
def wTradeData : List OhlcBar :=
  [{ mkBar 1 34200 16 26 15 25 1 with signal := 1 }, mkBar 1 54900 30 31 29 30 1]

/-- The trade the fixture produces. -/
def wTrade : Trade :=
  { date := 1, entry_time := ⟨1, 34200⟩, entry_price := 25, exit_time := ⟨1, 54900⟩,
    exit_price := 30, signal := 1, gross_pnl := 5, net_pnl := 5 - 5 * (0.0012 : ℚ) }

/-- Concrete fixture with two dates, for the determinism witness. -/
def wTwoDates : List OhlcBar :=
  [mkBar 1 34200 16 26 15 25 1, mkBar 2 34200 16 26 15 25 1]

/-! ### Basic facts about the datetime order -/

theorem DateTime.le_refl (a : DateTime) : DateTime.le a a := Or.inr ⟨rfl, le_rfl⟩

theorem DateTime.le_trans {a b c : DateTime} (h₁ : DateTime.le a b) (h₂ : DateTime.le b c) :
    DateTime.le a c := by
  rcases h₁ with h₁ | ⟨h₁, h₁'⟩ <;> rcases h₂ with h₂ | ⟨h₂, h₂'⟩
  · exact Or.inl (h₁.trans h₂)
  · exact Or.inl (h₂ ▸ h₁)
  · exact Or.inl (h₁ ▸ h₂)
  · exact Or.inr ⟨h₁.trans h₂, h₁'.trans h₂'⟩

/-! ### Folded maxima and minima -/

theorem foldl_max_max (l : List ℚ) : ∀ a b : ℚ, l.foldl max (max a b) = max a (l.foldl max b) := by
  induction l with
  | nil => intro a b; rfl
  | cons x xs ih =>
    intro a b
    simp only [List.foldl_cons]
    rw [max_assoc, ih]

theorem le_foldl_max (l : List ℚ) : ∀ a : ℚ, a ≤ l.foldl max a := by
  induction l with
  | nil => intro a; exact le_rfl
  | cons x xs ih =>
    intro a
    simp only [List.foldl_cons]
    exact le_trans (le_max_left a x) (ih (max a x))

theorem mem_le_foldl_max (l : List ℚ) (a : ℚ) : ∀ x ∈ l, x ≤ l.foldl max a := by
  induction l generalizing a with
  | nil => intro x hx; exact absurd hx (List.not_mem_nil x)
  | cons y ys ih =>
    intro x hx
    simp only [List.foldl_cons]
    rcases List.mem_cons.mp hx with rfl | h
    · exact le_trans (le_max_right a x) (le_foldl_max ys (max a x))
    · exact ih (max a y) x h

theorem foldl_max_mem (l : List ℚ) : ∀ a : ℚ, l.foldl max a = a ∨ l.foldl max a ∈ l := by
  induction l with
  | nil => intro a; exact Or.inl rfl
  | cons x xs ih =>
    intro a
    simp only [List.foldl_cons]
    rcases ih (max a x) with h | h
    · rcases max_choice a x with hc | hc
      · exact Or.inl (h.trans hc)
      · exact Or.inr (by rw [h, hc]; exact List.mem_cons_self x xs)
    · exact Or.inr (List.mem_cons_of_mem x h)

theorem spec_max_mem (x : ℚ) (xs : List ℚ) : spec_max (x :: xs) ∈ x :: xs := by
  show xs.foldl max x ∈ x :: xs
  rcases foldl_max_mem xs x with h | h
  · rw [h]; exact List.mem_cons_self x xs
  · exact List.mem_cons_of_mem x h

theorem foldl_max_zero_eq (x : ℚ) (xs : List ℚ) :
    (x :: xs).foldl max 0 = max 0 (spec_max (x :: xs)) := by
  simp only [List.foldl_cons, spec_max]
  exact foldl_max_max xs 0 x

theorem foldl_min_le (l : List ℚ) : ∀ a : ℚ, l.foldl min a ≤ a := by
  induction l with
  | nil => intro a; exact le_rfl
  | cons x xs ih =>
    intro a
    simp only [List.foldl_cons]
    exact le_trans (ih (min a x)) (min_le_left a x)

theorem foldl_min_le_mem (l : List ℚ) (a : ℚ) : ∀ x ∈ l, l.foldl min a ≤ x := by
  induction l generalizing a with
  | nil => intro x hx; exact absurd hx (List.not_mem_nil x)
  | cons y ys ih =>
    intro x hx
    simp only [List.foldl_cons]
    rcases List.mem_cons.mp hx with rfl | h
    · exact le_trans (foldl_min_le ys (min a x)) (min_le_right a x)
    · exact ih (min a y) x h

theorem foldl_min_mem (l : List ℚ) : ∀ a : ℚ, l.foldl min a = a ∨ l.foldl min a ∈ l := by
  induction l with
  | nil => intro a; exact Or.inl rfl
  | cons x xs ih =>
    intro a
    simp only [List.foldl_cons]
    rcases ih (min a x) with h | h
    · rcases min_choice a x with hc | hc
      · exact Or.inl (h.trans hc)
      · exact Or.inr (by rw [h, hc]; exact List.mem_cons_self x xs)
    · exact Or.inr (List.mem_cons_of_mem x h)

/-! ### C1 / C10: bar aggregation -/

/-- C1 (amended): for every closed bucket group (a nonempty list of ticks),
the emitted bar has open = the first tick's open, close = the last tick's
close, high = `max 0` of the maximum of the constituent highs (the Rust max is
folded from a seed of 0, so 0 caps it from below), low = the minimum of the
constituent lows, volume = the sum of the constituent volumes, and its
timestamp is the bucket start: the first tick's timestamp with the minute
floored to a multiple of 5 and the second zeroed. -/
theorem aggregate_bars_closed_group (b : OhlcBar) (rest : List OhlcBar) :
    (aggregate_bars (b :: rest)).open_ = b.open_
    ∧ (aggregate_bars (b :: rest)).close
        = ((b :: rest).getLast (List.cons_ne_nil b rest)).close
    ∧ (aggregate_bars (b :: rest)).high = max 0 (spec_max ((b :: rest).map (·.high)))
    ∧ (∀ x ∈ (b :: rest).map (·.high), x ≤ (aggregate_bars (b :: rest)).high)
    ∧ (aggregate_bars (b :: rest)).low ∈ (b :: rest).map (·.low)
    ∧ (∀ x ∈ (b :: rest).map (·.low), (aggregate_bars (b :: rest)).low ≤ x)
    ∧ (aggregate_bars (b :: rest)).volume = ((b :: rest).map (·.volume)).sum
    ∧ (aggregate_bars (b :: rest)).datetime = round_to_5min b.datetime
    ∧ (aggregate_bars (b :: rest)).datetime.time / 60 % 60 % 5 = 0
    ∧ (aggregate_bars (b :: rest)).datetime.time % 60 = 0 := by
  have hhigh : (aggregate_bars (b :: rest)).high
      = ((b :: rest).map (·.high)).foldl max 0 := by
    show (b :: rest).foldl (fun a x => max a x.high) 0 = _
    rw [List.foldl_map]
  have hlow : (aggregate_bars (b :: rest)).low
      = (rest.map (·.low)).foldl min b.low := by
    show rest.foldl (fun a x => min a x.low) b.low = _
    rw [List.foldl_map]
  refine ⟨rfl, ?_, ?_, ?_, ?_, ?_, rfl, rfl, ?_, ?_⟩
  · show ((b :: rest).getLastI).close = _
    rw [List.getLastI_eq_getLast?, List.getLast?_eq_getLast _ (List.cons_ne_nil b rest)]
  · rw [hhigh]
    simp only [List.map_cons]
    exact foldl_max_zero_eq b.high (rest.map (·.high))
  · intro x hx
    rw [hhigh]
    exact mem_le_foldl_max _ 0 x hx
  · rw [hlow]
    simp only [List.map_cons]
    rcases foldl_min_mem (rest.map (·.low)) b.low with h | h
    · rw [h]; exact List.mem_cons_self _ _
    · exact List.mem_cons_of_mem _ h
  · intro x hx
    rw [hlow]
    simp only [List.map_cons] at hx
    rcases List.mem_cons.mp hx with rfl | h
    · exact foldl_min_le _ _
    · exact foldl_min_le_mem _ _ x h
  · show (round_to_5min b.datetime).time / 60 % 60 % 5 = 0
    show (b.datetime.time / 3600 * 3600 + b.datetime.time / 60 % 60 / 5 * 5 * 60) / 60 % 60 % 5 = 0
    omega
  · show (round_to_5min b.datetime).time % 60 = 0
    show (b.datetime.time / 3600 * 3600 + b.datetime.time / 60 % 60 / 5 * 5 * 60) % 60 = 0
    omega

/-- C1 witness: the amended statement at a concrete two-tick group. -/
theorem aggregate_bars_closed_group_witness :
    (aggregate_bars (mkBar 1 33300 10 12 9 11 100 :: [mkBar 1 33360 11 13 10 12 50])).open_
      = (mkBar 1 33300 10 12 9 11 100).open_
    ∧ (aggregate_bars (mkBar 1 33300 10 12 9 11 100 :: [mkBar 1 33360 11 13 10 12 50])).close
        = ((mkBar 1 33300 10 12 9 11 100 :: [mkBar 1 33360 11 13 10 12 50]).getLast
            (List.cons_ne_nil _ _)).close
    ∧ (aggregate_bars (mkBar 1 33300 10 12 9 11 100 :: [mkBar 1 33360 11 13 10 12 50])).high
        = max 0 (spec_max ((mkBar 1 33300 10 12 9 11 100 :: [mkBar 1 33360 11 13 10 12 50]).map (·.high)))
    ∧ (∀ x ∈ (mkBar 1 33300 10 12 9 11 100 :: [mkBar 1 33360 11 13 10 12 50]).map (·.high),
        x ≤ (aggregate_bars (mkBar 1 33300 10 12 9 11 100 :: [mkBar 1 33360 11 13 10 12 50])).high)
    ∧ (aggregate_bars (mkBar 1 33300 10 12 9 11 100 :: [mkBar 1 33360 11 13 10 12 50])).low
        ∈ (mkBar 1 33300 10 12 9 11 100 :: [mkBar 1 33360 11 13 10 12 50]).map (·.low)
    ∧ (∀ x ∈ (mkBar 1 33300 10 12 9 11 100 :: [mkBar 1 33360 11 13 10 12 50]).map (·.low),
        (aggregate_bars (mkBar 1 33300 10 12 9 11 100 :: [mkBar 1 33360 11 13 10 12 50])).low ≤ x)
    ∧ (aggregate_bars (mkBar 1 33300 10 12 9 11 100 :: [mkBar 1 33360 11 13 10 12 50])).volume
        = ((mkBar 1 33300 10 12 9 11 100 :: [mkBar 1 33360 11 13 10 12 50]).map (·.volume)).sum
    ∧ (aggregate_bars (mkBar 1 33300 10 12 9 11 100 :: [mkBar 1 33360 11 13 10 12 50])).datetime
        = round_to_5min (mkBar 1 33300 10 12 9 11 100).datetime
    ∧ (aggregate_bars (mkBar 1 33300 10 12 9 11 100 :: [mkBar 1 33360 11 13 10 12 50])).datetime.time / 60 % 60 % 5 = 0
    ∧ (aggregate_bars (mkBar 1 33300 10 12 9 11 100 :: [mkBar 1 33360 11 13 10 12 50])).datetime.time % 60 = 0 :=
  aggregate_bars_closed_group (mkBar 1 33300 10 12 9 11 100) [mkBar 1 33360 11 13 10 12 50]

/-- C1 counterexample: the claim as stated ("high = the maximum of the
constituent ticks' highs") fails on a single tick whose high is negative:
the maximum fold is seeded with 0, so the emitted high is 0, not -1. -/
theorem aggregate_bars_high_counterexample :
    (aggregate_bars [mkBar 1 33300 (-1) (-1) (-1) (-1) 1]).high
      ≠ spec_max (([mkBar 1 33300 (-1) (-1) (-1) (-1) 1]).map (·.high)) := by
  decide

/-- C10: the emitted high is never below 0: it equals `max 0` of the maximum
of the constituent highs, because the Rust maximum is folded from a seed of
`0.0`; in particular, when every constituent high is negative the emitted high
is 0. -/
theorem aggregate_bars_high_seed_zero (b : OhlcBar) (rest : List OhlcBar) :
    0 ≤ (aggregate_bars (b :: rest)).high
    ∧ (aggregate_bars (b :: rest)).high = max 0 (spec_max ((b :: rest).map (·.high)))
    ∧ ((∀ x ∈ (b :: rest).map (·.high), x < 0) → (aggregate_bars (b :: rest)).high = 0) := by
  obtain ⟨-, -, hmax, -, -, -, -, -, -, -⟩ := aggregate_bars_closed_group b rest
  refine ⟨?_, hmax, ?_⟩
  · rw [hmax]; exact le_max_left 0 _
  · intro hneg
    rw [hmax, max_eq_left]
    have hm : spec_max ((b :: rest).map (·.high)) ∈ (b :: rest).map (·.high) := by
      simp only [List.map_cons]
      exact spec_max_mem b.high (rest.map (·.high))
    exact le_of_lt (hneg _ hm)

/-- C10 witness: a group whose two highs are both negative aggregates to
high 0. -/
theorem aggregate_bars_high_seed_zero_witness :
    0 ≤ (aggregate_bars (mkBar 1 33300 (-1) (-2) (-9) (-1) 1 :: [mkBar 1 33360 (-1) (-3) (-9) (-1) 1])).high
    ∧ (aggregate_bars (mkBar 1 33300 (-1) (-2) (-9) (-1) 1 :: [mkBar 1 33360 (-1) (-3) (-9) (-1) 1])).high
        = max 0 (spec_max ((mkBar 1 33300 (-1) (-2) (-9) (-1) 1 :: [mkBar 1 33360 (-1) (-3) (-9) (-1) 1]).map (·.high)))
    ∧ ((∀ x ∈ (mkBar 1 33300 (-1) (-2) (-9) (-1) 1 :: [mkBar 1 33360 (-1) (-3) (-9) (-1) 1]).map (·.high), x < 0) →
        (aggregate_bars (mkBar 1 33300 (-1) (-2) (-9) (-1) 1 :: [mkBar 1 33360 (-1) (-3) (-9) (-1) 1])).high = 0) :=
  aggregate_bars_high_seed_zero (mkBar 1 33300 (-1) (-2) (-9) (-1) 1) [mkBar 1 33360 (-1) (-3) (-9) (-1) 1]

/-! ### C5 / C6: performance metrics -/

theorem drawdown_fold_eq (l : List ℚ) : ∀ cum rm m : ℚ,
    (l.foldl (fun (s : ℚ × ℚ × ℚ) x =>
      (s.1 + x, max s.2.1 (s.1 + x), min s.2.2 (s.1 + x - max s.2.1 (s.1 + x)))) (cum, rm, m)).2.2
    = (spec_drawdowns cum rm l).foldl min m := by
  induction l with
  | nil => intro cum rm m; rfl
  | cons x xs ih =>
    intro cum rm m
    simp only [List.foldl_cons, spec_drawdowns]
    exact ih (cum + x) (max rm (cum + x)) (min m (cum + x - max rm (cum + x)))

theorem spec_drawdowns_nonpos (l : List ℚ) :
    ∀ cum rm : ℚ, ∀ x ∈ spec_drawdowns cum rm l, x ≤ 0 := by
  induction l with
  | nil => intro cum rm x hx; exact absurd hx (List.not_mem_nil x)
  | cons y ys ih =>
    intro cum rm x hx
    simp only [spec_drawdowns] at hx
    rcases List.mem_cons.mp hx with rfl | h
    · exact sub_nonpos.mpr (le_max_right rm (cum + y))
    · exact ih (cum + y) (max rm (cum + y)) x h

theorem foldl_min_zero_of_nonneg (l : List ℚ) (h : ∀ x ∈ l, 0 ≤ x) :
    l.foldl min 0 = 0 := by
  induction l with
  | nil => rfl
  | cons x xs ih =>
    simp only [List.foldl_cons]
    rw [min_eq_left (h x (List.mem_cons_self x xs))]
    exact ih (fun y hy => h y (List.mem_cons_of_mem x hy))

/-- The drawdown fold of `calculate_performance_metrics` on a nonempty trade
list, rewritten through the per-trade net P&L list. -/
theorem cpm_max_drawdown (trades : List Trade) (h : trades ≠ []) :
    (calculate_performance_metrics trades).max_drawdown
      = (spec_drawdowns 0 0 (trades.map (·.net_pnl))).foldl min 0 := by
  have hfold : trades.foldl
      (fun (s : ℚ × ℚ × ℚ) t =>
        let cum := s.1 + t.net_pnl
        let rm := max s.2.1 cum
        (cum, rm, min s.2.2 (cum - rm))) (0, 0, 0)
      = (trades.map (·.net_pnl)).foldl
        (fun (s : ℚ × ℚ × ℚ) x =>
          (s.1 + x, max s.2.1 (s.1 + x), min s.2.2 (s.1 + x - max s.2.1 (s.1 + x)))) (0, 0, 0) := by
    rw [List.foldl_map]
  simp only [calculate_performance_metrics, if_neg h]
  rw [hfold, drawdown_fold_eq]

/-- C5: on a nonempty trade sequence, `max_drawdown` is the most negative
value of (cumulative net P&L − running maximum of cumulative net P&L seen so
far, starting from the flat position 0) over the trades in order: it is a
lower bound of the drawdown list, it is one of its members or 0, it is ≤ 0,
and it is 0 when no drawdown is negative. -/
theorem max_drawdown_spec (trades : List Trade) (h : trades ≠ []) :
    (calculate_performance_metrics trades).max_drawdown
        = (spec_drawdowns 0 0 (trades.map (·.net_pnl))).foldl min 0
    ∧ (∀ x ∈ spec_drawdowns 0 0 (trades.map (·.net_pnl)),
        (calculate_performance_metrics trades).max_drawdown ≤ x)
    ∧ ((calculate_performance_metrics trades).max_drawdown
          ∈ spec_drawdowns 0 0 (trades.map (·.net_pnl))
        ∨ (calculate_performance_metrics trades).max_drawdown = 0)
    ∧ (calculate_performance_metrics trades).max_drawdown ≤ 0
    ∧ ((∀ x ∈ spec_drawdowns 0 0 (trades.map (·.net_pnl)), 0 ≤ x) →
        (calculate_performance_metrics trades).max_drawdown = 0) := by
  have he := cpm_max_drawdown trades h
  refine ⟨he, ?_, ?_, ?_, ?_⟩
  · intro x hx
    rw [he]
    exact foldl_min_le_mem _ 0 x hx
  · rw [he]
    rcases foldl_min_mem (spec_drawdowns 0 0 (trades.map (·.net_pnl))) 0 with h0 | hm
    · exact Or.inr h0
    · exact Or.inl hm
  · rw [he]
    exact foldl_min_le _ 0
  · intro hnn
    rw [he]
    exact foldl_min_zero_of_nonneg _ hnn

/-- C5 witness: the drawdown characterisation at a concrete two-trade list. -/
theorem max_drawdown_spec_witness :
    (calculate_performance_metrics wTrades).max_drawdown
        = (spec_drawdowns 0 0 (wTrades.map (·.net_pnl))).foldl min 0
    ∧ (∀ x ∈ spec_drawdowns 0 0 (wTrades.map (·.net_pnl)),
        (calculate_performance_metrics wTrades).max_drawdown ≤ x)
    ∧ ((calculate_performance_metrics wTrades).max_drawdown
          ∈ spec_drawdowns 0 0 (wTrades.map (·.net_pnl))
        ∨ (calculate_performance_metrics wTrades).max_drawdown = 0)
    ∧ (calculate_performance_metrics wTrades).max_drawdown ≤ 0
    ∧ ((∀ x ∈ spec_drawdowns 0 0 (wTrades.map (·.net_pnl)), 0 ≤ x) →
        (calculate_performance_metrics wTrades).max_drawdown = 0) :=
  max_drawdown_spec wTrades (by simp [wTrades])

theorem spec_variance_nonneg (trades : List Trade) : 0 ≤ spec_variance trades := by
  apply div_nonneg
  · apply List.sum_nonneg
    intro x hx
    rcases List.mem_map.mp hx with ⟨y, -, rfl⟩
    exact sq_nonneg _
  · exact Nat.cast_nonneg _

theorem countP_sign_partition (trades : List Trade) :
    trades.countP (fun t => decide (0 < t.net_pnl))
      + trades.countP (fun t => decide (t.net_pnl < 0))
      + trades.countP (fun t => decide (t.net_pnl = 0)) = trades.length := by
  induction trades with
  | nil => rfl
  | cons t ts ih =>
    simp only [List.countP_cons, List.length_cons]
    rcases lt_trichotomy t.net_pnl 0 with hc | hc | hc
    · have e1 : decide (0 < t.net_pnl) = false := by simp [lt_asymm hc]
      have e2 : decide (t.net_pnl < 0) = true := by simp [hc]
      have e3 : decide (t.net_pnl = 0) = false := by simp [ne_of_lt hc]
      rw [e1, e2, e3]
      simp
      omega
    · have e1 : decide (0 < t.net_pnl) = false := by simp [hc]
      have e2 : decide (t.net_pnl < 0) = false := by simp [hc]
      have e3 : decide (t.net_pnl = 0) = true := by simp [hc]
      rw [e1, e2, e3]
      simp
      omega
    · have e1 : decide (0 < t.net_pnl) = true := by simp [hc]
      have e2 : decide (t.net_pnl < 0) = false := by simp [lt_asymm hc]
      have e3 : decide (t.net_pnl = 0) = false := by simp [ne_of_gt hc]
      rw [e1, e2, e3]
      simp
      omega

/-- C6: on a nonempty trade sequence of length n the summary fields follow
the spec formulas: total = sum of net P&L; sharpe = mean/sqrt(variance) unless
the standard deviation is 0 (equivalently unless the population variance is
0), in which case 0; calmar = mean/|max_drawdown| unless max_drawdown = 0, in
which case 0; win_rate = 100 times (count of net P&L > 0)/n; avg_win and
avg_loss are the means over the strictly winning / strictly losing trades (0
if none); the three sign classes partition the trades, so a zero-P&L trade
counts toward neither; and the trade count is n. -/
theorem performance_formulas (trades : List Trade) (h : trades ≠ []) :
    (calculate_performance_metrics trades).total_pnl = (trades.map (·.net_pnl)).sum
    ∧ (calculate_performance_metrics trades).sharpe_ratio
        = (if Real.sqrt ((spec_variance trades : ℝ)) ≠ 0
           then (spec_mean trades : ℝ) / Real.sqrt ((spec_variance trades : ℝ)) else 0)
    ∧ (calculate_performance_metrics trades).sharpe_ratio
        = (if spec_variance trades = 0 then 0
           else (spec_mean trades : ℝ) / Real.sqrt ((spec_variance trades : ℝ)))
    ∧ (calculate_performance_metrics trades).calmar_ratio
        = (if (calculate_performance_metrics trades).max_drawdown = 0 then 0
           else spec_mean trades / |(calculate_performance_metrics trades).max_drawdown|)
    ∧ (calculate_performance_metrics trades).win_rate
        = 100 * (trades.countP (fun t => decide (0 < t.net_pnl)) : ℚ) / (trades.length : ℚ)
    ∧ (calculate_performance_metrics trades).avg_win
        = (if trades.countP (fun t => decide (0 < t.net_pnl)) = 0 then 0
           else ((trades.filter (fun t => decide (0 < t.net_pnl))).map (·.net_pnl)).sum
                / (trades.countP (fun t => decide (0 < t.net_pnl)) : ℚ))
    ∧ (calculate_performance_metrics trades).avg_loss
        = (if trades.countP (fun t => decide (t.net_pnl < 0)) = 0 then 0
           else ((trades.filter (fun t => decide (t.net_pnl < 0))).map (·.net_pnl)).sum
                / (trades.countP (fun t => decide (t.net_pnl < 0)) : ℚ))
    ∧ trades.countP (fun t => decide (0 < t.net_pnl))
        + trades.countP (fun t => decide (t.net_pnl < 0))
        + trades.countP (fun t => decide (t.net_pnl = 0)) = trades.length
    ∧ (calculate_performance_metrics trades).total_trades = trades.length := by
  have htot : (calculate_performance_metrics trades).total_pnl
      = (trades.map (·.net_pnl)).sum := by
    simp only [calculate_performance_metrics, if_neg h]
  have hsh : (calculate_performance_metrics trades).sharpe_ratio
      = (if Real.sqrt ((spec_variance trades : ℝ)) ≠ 0
         then (spec_mean trades : ℝ) / Real.sqrt ((spec_variance trades : ℝ)) else 0) := by
    simp only [calculate_performance_metrics, if_neg h, spec_variance, spec_mean]
  have hsh' : (calculate_performance_metrics trades).sharpe_ratio
      = (if spec_variance trades = 0 then 0
         else (spec_mean trades : ℝ) / Real.sqrt ((spec_variance trades : ℝ))) := by
    have hvn := spec_variance_nonneg trades
    have hiff : (Real.sqrt ((spec_variance trades : ℝ)) = 0) ↔ spec_variance trades = 0 := by
      rw [Real.sqrt_eq_zero']
      constructor
      · intro hle
        exact le_antisymm (by exact_mod_cast hle) hvn
      · intro h0
        rw [h0]
        simp
    simp only [hsh, ne_eq, ite_not, hiff]
  have hcal : (calculate_performance_metrics trades).calmar_ratio
      = (if (calculate_performance_metrics trades).max_drawdown = 0 then 0
         else spec_mean trades / |(calculate_performance_metrics trades).max_drawdown|) := by
    simp only [calculate_performance_metrics, if_neg h, spec_mean, ne_eq, ite_not]
  have hwr : (calculate_performance_metrics trades).win_rate
      = 100 * (trades.countP (fun t => decide (0 < t.net_pnl)) : ℚ) / (trades.length : ℚ) := by
    simp only [calculate_performance_metrics, if_neg h]
    rw [List.countP_eq_length_filter]
    ring
  have haw : (calculate_performance_metrics trades).avg_win
      = (if trades.countP (fun t => decide (0 < t.net_pnl)) = 0 then 0
         else ((trades.filter (fun t => decide (0 < t.net_pnl))).map (·.net_pnl)).sum
              / (trades.countP (fun t => decide (0 < t.net_pnl)) : ℚ)) := by
    simp only [calculate_performance_metrics, if_neg h]
    rw [List.countP_eq_length_filter]
    by_cases h0 : (trades.filter (fun t => decide (0 < t.net_pnl))) = []
    · simp [h0]
    · rw [if_neg (by simpa [List.isEmpty_iff] using h0),
        if_neg (by simpa [List.length_eq_zero] using h0)]
  have hal : (calculate_performance_metrics trades).avg_loss
      = (if trades.countP (fun t => decide (t.net_pnl < 0)) = 0 then 0
         else ((trades.filter (fun t => decide (t.net_pnl < 0))).map (·.net_pnl)).sum
              / (trades.countP (fun t => decide (t.net_pnl < 0)) : ℚ)) := by
    simp only [calculate_performance_metrics, if_neg h]
    rw [List.countP_eq_length_filter]
    by_cases h0 : (trades.filter (fun t => decide (t.net_pnl < 0))) = []
    · simp [h0]
    · rw [if_neg (by simpa [List.isEmpty_iff] using h0),
        if_neg (by simpa [List.length_eq_zero] using h0)]
  have hct : (calculate_performance_metrics trades).total_trades = trades.length := by
    simp only [calculate_performance_metrics, if_neg h]
  exact ⟨htot, hsh, hsh', hcal, hwr, haw, hal, countP_sign_partition trades, hct⟩

/-- C6 witness: the field formulas at a concrete two-trade list. -/
theorem performance_formulas_witness :
    (calculate_performance_metrics wTrades).total_pnl = (wTrades.map (·.net_pnl)).sum
    ∧ (calculate_performance_metrics wTrades).sharpe_ratio
        = (if Real.sqrt ((spec_variance wTrades : ℝ)) ≠ 0
           then (spec_mean wTrades : ℝ) / Real.sqrt ((spec_variance wTrades : ℝ)) else 0)
    ∧ (calculate_performance_metrics wTrades).sharpe_ratio
        = (if spec_variance wTrades = 0 then 0
           else (spec_mean wTrades : ℝ) / Real.sqrt ((spec_variance wTrades : ℝ)))
    ∧ (calculate_performance_metrics wTrades).calmar_ratio
        = (if (calculate_performance_metrics wTrades).max_drawdown = 0 then 0
           else spec_mean wTrades / |(calculate_performance_metrics wTrades).max_drawdown|)
    ∧ (calculate_performance_metrics wTrades).win_rate
        = 100 * (wTrades.countP (fun t => decide (0 < t.net_pnl)) : ℚ) / (wTrades.length : ℚ)
    ∧ (calculate_performance_metrics wTrades).avg_win
        = (if wTrades.countP (fun t => decide (0 < t.net_pnl)) = 0 then 0
           else ((wTrades.filter (fun t => decide (0 < t.net_pnl))).map (·.net_pnl)).sum
                / (wTrades.countP (fun t => decide (0 < t.net_pnl)) : ℚ))
    ∧ (calculate_performance_metrics wTrades).avg_loss
        = (if wTrades.countP (fun t => decide (t.net_pnl < 0)) = 0 then 0
           else ((wTrades.filter (fun t => decide (t.net_pnl < 0))).map (·.net_pnl)).sum
                / (wTrades.countP (fun t => decide (t.net_pnl < 0)) : ℚ))
    ∧ wTrades.countP (fun t => decide (0 < t.net_pnl))
        + wTrades.countP (fun t => decide (t.net_pnl < 0))
        + wTrades.countP (fun t => decide (t.net_pnl = 0)) = wTrades.length
    ∧ (calculate_performance_metrics wTrades).total_trades = wTrades.length :=
  performance_formulas wTrades (by simp [wTrades])

/-- C8: the performance evaluator on an empty trade sequence returns the
all-zero summary with trade count 0. -/
theorem calculate_performance_metrics_empty :
    calculate_performance_metrics [] =
      { total_pnl := 0, max_drawdown := 0, sharpe_ratio := 0, calmar_ratio := 0
        win_rate := 0, avg_win := 0, avg_loss := 0, total_trades := 0 } := by
  rfl

/-! ### C4: signal detection -/

theorem find?_eq_head?_filter {α : Type} (p : α → Bool) (l : List α) :
    l.find? p = (l.filter p).head? := by
  induction l with
  | nil => rfl
  | cons x xs ih =>
    by_cases hx : p x = true
    · rw [List.find?_cons_of_pos _ hx, List.filter_cons_of_pos hx]
      rfl
    · rw [List.find?_cons_of_neg _ hx, List.filter_cons_of_neg hx, ih]

/-- The fold of `insert` steps looks up to the last inserted bar for the date:
the last bar of the data (scanned left to right) sitting at the target time. -/
theorem signal_map_foldl (data : List OhlcBar) :
    ∀ (m : Nat → Option (String × ℚ)) (d : Nat),
      (data.foldl signal_map_step m) d
        = (match data.reverse.find? (fun b => decide (b.date = d ∧ b.time = target_time)) with
           | none => m d
           | some c => some (classify c)) := by
  induction data with
  | nil => intro m d; rfl
  | cons b rest ih =>
    intro m d
    simp only [List.foldl_cons, List.reverse_cons]
    rw [List.find?_append, ih (signal_map_step m b) d]
    rcases hr : rest.reverse.find? (fun b => decide (b.date = d ∧ b.time = target_time)) with _ | c
    · rw [hr]
      simp only [Option.none_or]
      by_cases hb : (b.date = d ∧ b.time = target_time)
      · rw [show ([b].find? (fun b => decide (b.date = d ∧ b.time = target_time))) = some b from
          List.find?_cons_of_pos _ (by simpa using hb)]
        simp only [signal_map_step, if_pos hb.2, if_pos hb.1.symm]
      · rw [show ([b].find? (fun b => decide (b.date = d ∧ b.time = target_time))) = none from
          List.find?_cons_of_neg _ (by simpa using hb)]
        by_cases ht : b.time = target_time
        · have hd : b.date ≠ d := fun hdd => hb ⟨hdd, ht⟩
          simp only [signal_map_step, if_pos ht, if_neg (Ne.symm hd)]
        · simp only [signal_map_step, if_neg ht]
    · rw [hr]
      rfl

theorem signal_map_of_filter_single (data : List OhlcBar) (d : Nat) (c : OhlcBar)
    (h : data.filter (fun b => decide (b.date = d ∧ b.time = target_time)) = [c]) :
    signal_map data d = some (classify c) := by
  rw [signal_map, signal_map_foldl data (fun _ => none) d,
    find?_eq_head?_filter, List.filter_reverse, h]
  rfl

theorem signal_map_of_filter_nil (data : List OhlcBar) (d : Nat)
    (h : data.filter (fun b => decide (b.date = d ∧ b.time = target_time)) = []) :
    signal_map data d = none := by
  rw [signal_map, signal_map_foldl data (fun _ => none) d,
    find?_eq_head?_filter, List.filter_reverse, h]
  rfl

theorem apply_signal_info_date (data : List OhlcBar) (bar : OhlcBar) :
    (apply_signal_info data bar).date = bar.date := by
  rcases h : signal_map data bar.date with _ | ⟨t, v⟩ <;> simp [apply_signal_info, h]

theorem apply_signal_info_close (data : List OhlcBar) (bar : OhlcBar) :
    (apply_signal_info data bar).close = bar.close := by
  rcases h : signal_map data bar.date with _ | ⟨t, v⟩ <;> simp [apply_signal_info, h]

theorem assign_signal_date (bar : OhlcBar) : (assign_signal bar).date = bar.date := by
  rcases h1 : bar.candle_type with _ | ct <;> rcases h2 : bar.candle_val with _ | cv <;>
    simp [assign_signal, h1, h2]

theorem assign_signal_close (bar : OhlcBar) : (assign_signal bar).close = bar.close := by
  rcases h1 : bar.candle_type with _ | ct <;> rcases h2 : bar.candle_val with _ | cv <;>
    simp [assign_signal, h1, h2]

/-- C4: after signal detection, on a date with exactly one bar `c` at 09:25,
every bar of that date (including those before 09:25) carries the
classification "bullish" iff `c.close > c.open` (ties to bearish) and the
reference value `c.high` if bullish / `c.low` if bearish, and its signal is
-1 on a bearish date when the bar closes below the reference, +1 on a bullish
date when it closes above, else 0; on a date with no bar at 09:25, bars that
entered the pipeline unclassified with signal 0 stay so. -/
theorem signal_detection_spec (data : List OhlcBar) (d : Nat) (c : OhlcBar) :
    ((data.filter (fun b => decide (b.date = d ∧ b.time = target_time)) = [c]) →
      ∀ b ∈ generate_trading_signals (identify_signal_candles data), b.date = d →
        b.candle_type = some (if c.open_ < c.close then "bullish" else "bearish")
        ∧ b.candle_val = some (if c.open_ < c.close then c.high else c.low)
        ∧ b.signal = (if ¬ c.open_ < c.close
              ∧ b.close < (if c.open_ < c.close then c.high else c.low) then -1
            else if c.open_ < c.close
              ∧ (if c.open_ < c.close then c.high else c.low) < b.close then 1
            else 0))
    ∧ ((data.filter (fun b => decide (b.date = d ∧ b.time = target_time)) = []) →
      (∀ b ∈ data, b.date = d →
        b.candle_type = none ∧ b.candle_val = none ∧ b.signal = 0) →
      ∀ b ∈ generate_trading_signals (identify_signal_candles data), b.date = d →
        b.candle_type = none ∧ b.candle_val = none ∧ b.signal = 0) := by
  constructor
  · intro hf b' hb' hdate
    rw [generate_trading_signals, identify_signal_candles, List.map_map] at hb'
    obtain ⟨b, hbmem, rfl⟩ := List.mem_map.mp hb'
    have hbd : b.date = d := by
      rw [Function.comp_apply, assign_signal_date, apply_signal_info_date] at hdate
      exact hdate
    have hsm := signal_map_of_filter_single data d c hf
    rcases hc : classify c with ⟨t, v⟩
    rw [hc] at hsm
    have hF : apply_signal_info data b
        = { b with candle_type := some t, candle_val := some v } := by
      rw [apply_signal_info, hbd, hsm]
    have ht : t = (if c.open_ < c.close then "bullish" else "bearish") := by
      have := congrArg Prod.fst hc
      simpa [classify] using this.symm
    have hv : v = (if c.open_ < c.close then c.high else c.low) := by
      have := congrArg Prod.snd hc
      simpa [classify] using this.symm
    rw [Function.comp_apply, hF]
    by_cases hbull : c.open_ < c.close
    · simp [assign_signal, ht, hv, hbull]
    · simp [assign_signal, ht, hv, hbull]
  · intro hf hclean b' hb' hdate
    rw [generate_trading_signals, identify_signal_candles, List.map_map] at hb'
    obtain ⟨b, hbmem, rfl⟩ := List.mem_map.mp hb'
    have hbd : b.date = d := by
      rw [Function.comp_apply, assign_signal_date, apply_signal_info_date] at hdate
      exact hdate
    have hsm := signal_map_of_filter_nil data d hf
    have hF : apply_signal_info data b = b := by
      rw [apply_signal_info, hbd, hsm]
    obtain ⟨hc1, hc2, hc3⟩ := hclean b hbmem hbd
    have hG : assign_signal b = b := by
      rw [assign_signal, hc1]
    rw [Function.comp_apply, hF, hG]
    exact ⟨hc1, hc2, hc3⟩

/-- C4 witness: both branches of the signal-detection theorem instantiated. -/
theorem signal_detection_spec_witness :
    (∀ b ∈ generate_trading_signals (identify_signal_candles wSignalData), b.date = 1 →
        b.candle_type = some (if (mkBar 1 33900 10 20 9 15 1).open_ < (mkBar 1 33900 10 20 9 15 1).close then "bullish" else "bearish")
        ∧ b.candle_val = some (if (mkBar 1 33900 10 20 9 15 1).open_ < (mkBar 1 33900 10 20 9 15 1).close then (mkBar 1 33900 10 20 9 15 1).high else (mkBar 1 33900 10 20 9 15 1).low)
        ∧ b.signal = (if ¬ (mkBar 1 33900 10 20 9 15 1).open_ < (mkBar 1 33900 10 20 9 15 1).close
              ∧ b.close < (if (mkBar 1 33900 10 20 9 15 1).open_ < (mkBar 1 33900 10 20 9 15 1).close then (mkBar 1 33900 10 20 9 15 1).high else (mkBar 1 33900 10 20 9 15 1).low) then -1
            else if (mkBar 1 33900 10 20 9 15 1).open_ < (mkBar 1 33900 10 20 9 15 1).close
              ∧ (if (mkBar 1 33900 10 20 9 15 1).open_ < (mkBar 1 33900 10 20 9 15 1).close then (mkBar 1 33900 10 20 9 15 1).high else (mkBar 1 33900 10 20 9 15 1).low) < b.close then 1
            else 0))
    ∧ (∀ b ∈ generate_trading_signals (identify_signal_candles wSignalData), b.date = 2 →
        b.candle_type = none ∧ b.candle_val = none ∧ b.signal = 0) :=
  ⟨(signal_detection_spec wSignalData 1 (mkBar 1 33900 10 20 9 15 1)).1 (by decide),
   (signal_detection_spec wSignalData 2 (mkBar 1 33900 10 20 9 15 1)).2 (by decide)
     (by decide)⟩

/-! ### C2 / C3 / C7 / C9: trade construction -/

theorem tradeForDate_date (data : List OhlcBar) (d : Nat) (t : Trade)
    (h : tradeForDate data d = some t) : t.date = d := by
  rw [tradeForDate] at h
  rcases hf : (windowBars data d).find? (fun b => decide (b.signal ≠ 0)) with _ | e
  · rw [hf] at h
    exact absurd h (by simp)
  · rw [hf] at h
    simp only [Option.some.injEq] at h
    rw [← h]

theorem filterMap_trades_dates_sublist (data : List OhlcBar) :
    ∀ order : List Nat,
      ((order.filterMap (tradeForDate data)).map (·.date)).Sublist order := by
  intro order
  induction order with
  | nil => simp
  | cons a rest ih =>
    rcases hf : tradeForDate data a with _ | t
    · rw [List.filterMap_cons, hf]
      exact ih.cons a
    · rw [List.filterMap_cons, hf, List.map_cons, tradeForDate_date data a t hf]
      exact ih.cons₂ a

theorem filterMap_trades_filter_date (data : List OhlcBar) (d : Nat) :
    ∀ order : List Nat, order.Nodup →
      ((order.filterMap (tradeForDate data)).filter (fun t => decide (t.date = d)))
        = if d ∈ order then (tradeForDate data d).toList else [] := by
  intro order
  induction order with
  | nil => intro _; simp
  | cons a rest ih =>
    intro hnd
    have hna : a ∉ rest := (List.nodup_cons.mp hnd).1
    have hrest := (List.nodup_cons.mp hnd).2
    rcases hf : tradeForDate data a with _ | t
    · rw [List.filterMap_cons, hf, ih hrest]
      by_cases hda : d = a
      · subst hda
        rw [if_neg hna, if_pos (List.mem_cons_self d rest), hf]
        rfl
      · simp only [List.mem_cons, hda, false_or]
    · have htd : t.date = a := tradeForDate_date data a t hf
      rw [List.filterMap_cons, hf]
      by_cases hda : d = a
      · subst hda
        rw [List.filter_cons_of_pos (by simp [htd]), ih hrest, if_neg hna,
          if_pos (List.mem_cons_self d rest), hf]
        rfl
      · rw [List.filter_cons_of_neg (by simp [htd, Ne.symm hda]), ih hrest]
        simp only [List.mem_cons, hda, false_or]

theorem tradeForDate_none_of_not_mem (data : List OhlcBar) (d : Nat)
    (h : d ∉ datesOf data) : tradeForDate data d = none := by
  have hwb : windowBars data d = [] := by
    rw [windowBars, List.filter_eq_nil_iff]
    intro b hb
    simp only [Bool.and_eq_true, decide_eq_true_eq]
    rintro ⟨hbd, hw⟩
    apply h
    rw [datesOf, List.mem_dedup]
    exact List.mem_map.mpr ⟨b, List.mem_filter.mpr ⟨hb, hw⟩, hbd⟩
  rw [tradeForDate, hwb]
  rfl

/-- Master lemma: the per-date restriction of the final (sorted) trade list is
exactly what the per-date loop body produces for that date. -/
theorem identify_trades_filter_date (data : List OhlcBar) (d : Nat) :
    (identify_trades data).filter (fun t => decide (t.date = d))
      = (tradeForDate data d).toList := by
  have hperm : List.Perm
      ((identify_trades data).filter (fun t => decide (t.date = d)))
      (((datesOf data).filterMap (tradeForDate data)).filter (fun t => decide (t.date = d))) :=
    (List.perm_insertionSort trade_le _).filter _
  have heq : ((datesOf data).filterMap (tradeForDate data)).filter (fun t => decide (t.date = d))
      = (tradeForDate data d).toList := by
    rw [filterMap_trades_filter_date data d (datesOf data) (List.nodup_dedup _)]
    by_cases hd : d ∈ datesOf data
    · rw [if_pos hd]
    · rw [if_neg hd, tradeForDate_none_of_not_mem data d hd]
      rfl
  rw [heq] at hperm
  rcases hf : tradeForDate data d with _ | t
  · rw [hf] at hperm
    exact List.perm_nil.mp hperm
  · rw [hf] at hperm
    exact List.perm_singleton.mp hperm

theorem mem_identify_trades (data : List OhlcBar) (t : Trade) :
    t ∈ identify_trades data ↔ ∃ d ∈ datesOf data, tradeForDate data d = some t := by
  rw [identify_trades, identify_trades_order,
    (List.perm_insertionSort trade_le ((datesOf data).filterMap (tradeForDate data))).mem_iff,
    List.mem_filterMap]

theorem getLastI_mem (l : List OhlcBar) (h : l ≠ []) : l.getLastI ∈ l := by
  rw [List.getLastI_eq_getLast?, List.getLast?_eq_getLast _ h]
  exact List.getLast_mem h

theorem getLastI_cons_cons (x y : OhlcBar) (ys : List OhlcBar) :
    (x :: y :: ys).getLastI = (y :: ys).getLastI := by
  rw [List.getLastI_eq_getLast?, List.getLastI_eq_getLast?, List.getLast?_cons_cons]

/-- In a datetime-sorted list every element is at or before the last one. -/
theorem sorted_le_getLastI (l : List OhlcBar)
    (hs : l.Pairwise (fun a b => DateTime.le a.datetime b.datetime)) :
    ∀ b ∈ l, DateTime.le b.datetime (l.getLastI).datetime := by
  induction l with
  | nil => intro b hb; exact absurd hb (List.not_mem_nil b)
  | cons x xs ih =>
    intro b hb
    rcases xs with _ | ⟨y, ys⟩
    · have : b = x := by simpa using hb
      subst this
      exact DateTime.le_refl _
    · rw [getLastI_cons_cons]
      rcases List.mem_cons.mp hb with rfl | hbm
      · exact (List.pairwise_cons.mp hs).1 _ (getLastI_mem _ (List.cons_ne_nil y ys))
      · exact ih (List.pairwise_cons.mp hs).2 b hbm

/-- In a datetime-sorted list, the element `find?` returns is at or before
every element satisfying the predicate. -/
theorem find?_first_sorted (l : List OhlcBar) (p : OhlcBar → Bool) :
    l.Pairwise (fun a b => DateTime.le a.datetime b.datetime) →
    ∀ e : OhlcBar, l.find? p = some e →
    ∀ b ∈ l, p b → DateTime.le e.datetime b.datetime := by
  induction l with
  | nil => intro _ e hf; exact absurd hf (by simp)
  | cons x xs ih =>
    intro hs e hf b hb hpb
    by_cases hpx : p x = true
    · rw [List.find?_cons_of_pos _ hpx, Option.some.injEq] at hf
      subst hf
      rcases List.mem_cons.mp hb with rfl | hbm
      · exact DateTime.le_refl _
      · exact (List.pairwise_cons.mp hs).1 b hbm
    · rw [List.find?_cons_of_neg _ hpx] at hf
      rcases List.mem_cons.mp hb with rfl | hbm
      · exact absurd hpb hpx
      · exact ih (List.pairwise_cons.mp hs).2 e hf b hbm hpb

/-- C2: per-date trade construction.  With datetime-sorted input bars and
`w` the in-window bars of date `d`: if no bar of `w` has a nonzero signal,
the date produces no trade; if the scan finds an entry bar `e`, exactly one
trade is produced for the date, its entry is `e` — a nonzero-signal window
bar at or before (in time) every nonzero-signal window bar — and its exit is
a window bar at exactly 15:15 if the scan finds one, else the last window
bar. -/
theorem identify_trades_per_date (data : List OhlcBar) (d : Nat)
    (hs : List.Sorted (fun a b : OhlcBar => DateTime.le a.datetime b.datetime) data) :
    ((∀ b ∈ windowBars data d, b.signal = 0) →
      (identify_trades data).filter (fun t => decide (t.date = d)) = [])
    ∧ (∀ e, (windowBars data d).find? (fun b => decide (b.signal ≠ 0)) = some e →
        ∃ t, (identify_trades data).filter (fun t => decide (t.date = d)) = [t]
          ∧ t.entry_time = e.datetime ∧ t.entry_price = e.close ∧ t.signal = e.signal
          ∧ e ∈ windowBars data d ∧ e.signal ≠ 0
          ∧ (∀ b ∈ windowBars data d, b.signal ≠ 0 → DateTime.le e.datetime b.datetime)
          ∧ ((∃ x ∈ windowBars data d, x.time = exit_time
                ∧ t.exit_time = x.datetime ∧ t.exit_price = x.open_)
             ∨ ((∀ b ∈ windowBars data d, b.time ≠ exit_time)
                ∧ t.exit_time = ((windowBars data d).getLastI).datetime
                ∧ t.exit_price = ((windowBars data d).getLastI).open_))) := by
  have hws : (windowBars data d).Pairwise (fun a b => DateTime.le a.datetime b.datetime) :=
    hs.sublist (List.filter_sublist data)
  constructor
  · intro hzero
    have hf : (windowBars data d).find? (fun b => decide (b.signal ≠ 0)) = none := by
      rw [List.find?_eq_none]
      intro b hb
      simp [hzero b hb]
    rw [identify_trades_filter_date data d, tradeForDate, hf]
    rfl
  · intro e hf
    have hfe : (identify_trades data).filter (fun t => decide (t.date = d))
        = (tradeForDate data d).toList := identify_trades_filter_date data d
    rw [tradeForDate, hf] at hfe
    have hemem : e ∈ windowBars data d := List.mem_of_find?_eq_some hf
    have hesig : e.signal ≠ 0 := by
      have := List.find?_some hf
      simpa using this
    refine ⟨_, hfe, rfl, rfl, rfl, hemem, hesig, ?_, ?_⟩
    · intro b hb hbs
      exact find?_first_sorted _ _ hws e hf b hb (by simpa using hbs)
    · rcases hx : (windowBars data d).find? (fun b => decide (b.time = exit_time)) with _ | x
    -- placeholder
      · right
        refine ⟨?_, by simp [hx], by simp [hx]⟩
        intro b hb
        have := List.find?_eq_none.mp hx b hb
        simpa using this
      · left
        refine ⟨x, List.mem_of_find?_eq_some hx, ?_, by simp [hx], by simp [hx]⟩
        have := List.find?_some hx
        simpa using this

theorem mem_windowBars (data : List OhlcBar) (d : Nat) (b : OhlcBar) :
    b ∈ windowBars data d
      ↔ b ∈ data ∧ b.date = d ∧ start_time ≤ b.time ∧ b.time ≤ end_time := by
  simp [windowBars, in_window, List.mem_filter, and_assoc]

/-- C2 witness: the per-date construction at the concrete fixture. -/
theorem identify_trades_per_date_witness :
    ((∀ b ∈ windowBars wTradeData 1, b.signal = 0) →
      (identify_trades wTradeData).filter (fun t => decide (t.date = 1)) = [])
    ∧ (∀ e, (windowBars wTradeData 1).find? (fun b => decide (b.signal ≠ 0)) = some e →
        ∃ t, (identify_trades wTradeData).filter (fun t => decide (t.date = 1)) = [t]
          ∧ t.entry_time = e.datetime ∧ t.entry_price = e.close ∧ t.signal = e.signal
          ∧ e ∈ windowBars wTradeData 1 ∧ e.signal ≠ 0
          ∧ (∀ b ∈ windowBars wTradeData 1, b.signal ≠ 0 → DateTime.le e.datetime b.datetime)
          ∧ ((∃ x ∈ windowBars wTradeData 1, x.time = exit_time
                ∧ t.exit_time = x.datetime ∧ t.exit_price = x.open_)
             ∨ ((∀ b ∈ windowBars wTradeData 1, b.time ≠ exit_time)
                ∧ t.exit_time = ((windowBars wTradeData 1).getLastI).datetime
                ∧ t.exit_price = ((windowBars wTradeData 1).getLastI).open_))) :=
  identify_trades_per_date wTradeData 1 (by decide)

/-- C3: every constructed trade prices the entry at the entry bar's close and
the exit at the exit bar's open; gross P&L is entry − exit for a short
(signal −1) and exit − entry otherwise (in particular for signal +1); the
transaction cost is |exit − entry| × 0.0012 regardless of direction and net =
gross − cost. -/
theorem trade_pnl_formulas (data : List OhlcBar) (t : Trade)
    (h : t ∈ identify_trades data) :
    (t.signal = -1 → t.gross_pnl = t.entry_price - t.exit_price)
    ∧ (t.signal = 1 → t.gross_pnl = t.exit_price - t.entry_price)
    ∧ t.net_pnl = t.gross_pnl - |t.exit_price - t.entry_price| * (0.0012 : ℚ) := by
  obtain ⟨d, -, hf⟩ := (mem_identify_trades data t).mp h
  rw [tradeForDate] at hf
  rcases hfind : (windowBars data d).find? (fun b => decide (b.signal ≠ 0)) with _ | e
  · rw [hfind] at hf
    exact absurd hf (by simp)
  · rw [hfind] at hf
    simp only [Option.some.injEq] at hf
    subst hf
    refine ⟨?_, ?_, rfl⟩
    · intro hsig
      simp only at hsig ⊢
      rw [if_pos hsig]
    · intro hsig
      simp only at hsig ⊢
      rw [if_neg (by rw [hsig]; decide)]

/-- C3 witness: the P&L formulas at the fixture's concrete trade. -/
theorem trade_pnl_formulas_witness :
    (wTrade.signal = -1 → wTrade.gross_pnl = wTrade.entry_price - wTrade.exit_price)
    ∧ (wTrade.signal = 1 → wTrade.gross_pnl = wTrade.exit_price - wTrade.entry_price)
    ∧ wTrade.net_pnl
        = wTrade.gross_pnl - |wTrade.exit_price - wTrade.entry_price| * (0.0012 : ℚ) :=
  trade_pnl_formulas wTradeData wTrade (by
    have h : identify_trades wTradeData = [wTrade] := by
      norm_num [identify_trades, identify_trades_order, datesOf, wTradeData, mkBar,
        tradeForDate, windowBars, in_window, start_time, end_time, exit_time,
        List.insertionSort, List.orderedInsert, trade_le, wTrade,
        List.filterMap_cons, List.dedup, List.find?, Trade.mk.injEq, DateTime.mk.injEq]
    rw [h]
    exact List.mem_singleton_self wTrade)

/-- C7: with datetime-sorted input whose bars are well formed (the redundant
date/time fields agree with the datetime, signals lie in {-1,0,1}), every
constructed trade exits at or after its entry and has signal -1 or +1, at most
one trade is produced per date, and the output is sorted ascending by date. -/
theorem identify_trades_invariants (data : List OhlcBar)
    (hs : List.Sorted (fun a b : OhlcBar => DateTime.le a.datetime b.datetime) data)
    (hcons : ∀ b ∈ data, b.datetime.date = b.date ∧ b.datetime.time = b.time)
    (hsig : ∀ b ∈ data, b.signal = -1 ∨ b.signal = 0 ∨ b.signal = 1) :
    (∀ t ∈ identify_trades data, DateTime.le t.entry_time t.exit_time)
    ∧ (∀ t ∈ identify_trades data, t.signal = -1 ∨ t.signal = 1)
    ∧ ((identify_trades data).map (·.date)).Nodup
    ∧ List.Sorted trade_le (identify_trades data) := by
  refine ⟨?_, ?_, ?_, ?_⟩
  · intro t ht
    obtain ⟨d, -, hf⟩ := (mem_identify_trades data t).mp ht
    have hws : (windowBars data d).Pairwise (fun a b => DateTime.le a.datetime b.datetime) :=
      hs.sublist (List.filter_sublist data)
    rw [tradeForDate] at hf
    rcases hfind : (windowBars data d).find? (fun b => decide (b.signal ≠ 0)) with _ | e
    · rw [hfind] at hf
      exact absurd hf (by simp)
    · rw [hfind] at hf
      simp only [Option.some.injEq] at hf
      subst hf
      have hemem : e ∈ windowBars data d := List.mem_of_find?_eq_some hfind
      obtain ⟨hedata, hedate, -, heend⟩ := (mem_windowBars data d e).mp hemem
      rcases hfx : (windowBars data d).find? (fun b => decide (b.time = exit_time)) with _ | x
      · simp only [hfx, Option.getD_none]
        exact sorted_le_getLastI _ hws e hemem
      · simp only [hfx, Option.getD_some]
        have hxmem : x ∈ windowBars data d := List.mem_of_find?_eq_some hfx
        obtain ⟨hxdata, hxdate, -, -⟩ := (mem_windowBars data d x).mp hxmem
        have hxt : x.time = exit_time := by
          have := List.find?_some hfx
          simpa using this
        obtain ⟨hed, het⟩ := hcons e hedata
        obtain ⟨hxd, hxti⟩ := hcons x hxdata
        refine Or.inr ⟨by rw [hed, hxd, hedate, hxdate], ?_⟩
        rw [het, hxti, hxt]
        exact heend
  · intro t ht
    obtain ⟨d, -, hf⟩ := (mem_identify_trades data t).mp ht
    rw [tradeForDate] at hf
    rcases hfind : (windowBars data d).find? (fun b => decide (b.signal ≠ 0)) with _ | e
    · rw [hfind] at hf
      exact absurd hf (by simp)
    · rw [hfind] at hf
      simp only [Option.some.injEq] at hf
      subst hf
      have hemem : e ∈ windowBars data d := List.mem_of_find?_eq_some hfind
      have hedata : e ∈ data := ((mem_windowBars data d e).mp hemem).1
      have hesig : e.signal ≠ 0 := by
        have := List.find?_some hfind
        simpa using this
      rcases hsig e hedata with h1 | h1 | h1
      · exact Or.inl h1
      · exact absurd h1 hesig
      · exact Or.inr h1
  · have h1 : (((datesOf data).filterMap (tradeForDate data)).map (·.date)).Nodup :=
      (filterMap_trades_dates_sublist data (datesOf data)).nodup (List.nodup_dedup _)
    rw [identify_trades, identify_trades_order]
    exact (((List.perm_insertionSort trade_le _).map (·.date)).nodup_iff).mpr h1
  · rw [identify_trades, identify_trades_order]
    exact List.sorted_insertionSort trade_le _

/-- C7 witness: the invariants at the concrete fixture. -/
theorem identify_trades_invariants_witness :
    (∀ t ∈ identify_trades wTradeData, DateTime.le t.entry_time t.exit_time)
    ∧ (∀ t ∈ identify_trades wTradeData, t.signal = -1 ∨ t.signal = 1)
    ∧ ((identify_trades wTradeData).map (·.date)).Nodup
    ∧ List.Sorted trade_le (identify_trades wTradeData) :=
  identify_trades_invariants wTradeData (by decide) (by decide) (by decide)

/-- Sorting by date erases the iteration order: any enumeration of the date
keys yields the canonical trade list. -/
theorem identify_trades_order_invariant (data : List OhlcBar) (o : List Nat)
    (ho : List.Perm o (datesOf data)) :
    identify_trades_order o data = identify_trades data := by
  have hono : o.Nodup := (ho.nodup_iff).mpr (List.nodup_dedup _)
  have hperm : List.Perm (o.filterMap (tradeForDate data))
      ((datesOf data).filterMap (tradeForDate data)) := ho.filterMap _
  have hp : List.Perm (List.insertionSort trade_le (o.filterMap (tradeForDate data)))
      (List.insertionSort trade_le ((datesOf data).filterMap (tradeForDate data))) :=
    (List.perm_insertionSort _ _).trans (hperm.trans (List.perm_insertionSort _ _).symm)
  have hstrict : ∀ l : List Trade, List.Sorted trade_le l → ((l.map (·.date)).Nodup) →
      l.Pairwise (fun a b : Trade => a.date < b.date) := by
    intro l hsorted hnd
    have hne : l.Pairwise (fun a b : Trade => a.date ≠ b.date) := List.pairwise_map.mp hnd
    exact (hsorted.and hne).imp (fun hab => lt_of_le_of_ne hab.1 hab.2)
  have hnd₁ : ((List.insertionSort trade_le (o.filterMap (tradeForDate data))).map (·.date)).Nodup :=
    (((List.perm_insertionSort trade_le _).map (·.date)).nodup_iff).mpr
      ((filterMap_trades_dates_sublist data o).nodup hono)
  have hnd₂ : ((List.insertionSort trade_le
      ((datesOf data).filterMap (tradeForDate data))).map (·.date)).Nodup :=
    (((List.perm_insertionSort trade_le _).map (·.date)).nodup_iff).mpr
      ((filterMap_trades_dates_sublist data (datesOf data)).nodup (List.nodup_dedup _))
  haveI : IsAntisymm Trade (fun a b : Trade => a.date < b.date) :=
    ⟨fun a b h1 h2 => absurd (h1.trans h2) (lt_irrefl _)⟩
  exact List.eq_of_perm_of_sorted hp
    (hstrict _ (List.sorted_insertionSort trade_le _) hnd₁)
    (hstrict _ (List.sorted_insertionSort trade_le _) hnd₂)

/-- C9: the pipeline is deterministic in the face of the hash map: whatever
order the per-date hash iteration enumerates the date keys in, the trade list
and the performance summary are the same. -/
theorem pipeline_deterministic (data : List OhlcBar) (o₁ o₂ : List Nat)
    (h₁ : List.Perm o₁ (datesOf data)) (h₂ : List.Perm o₂ (datesOf data)) :
    identify_trades_order o₁ data = identify_trades_order o₂ data
    ∧ calculate_performance_metrics (identify_trades_order o₁ data)
        = calculate_performance_metrics (identify_trades_order o₂ data) := by
  have he := (identify_trades_order_invariant data o₁ h₁).trans
    (identify_trades_order_invariant data o₂ h₂).symm
  exact ⟨he, congrArg _ he⟩

/-- C9 witness: the two opposite enumeration orders of the two dates yield
identical trades and summary. -/
theorem pipeline_deterministic_witness :
    identify_trades_order [1, 2] wTwoDates = identify_trades_order [2, 1] wTwoDates
    ∧ calculate_performance_metrics (identify_trades_order [1, 2] wTwoDates)
        = calculate_performance_metrics (identify_trades_order [2, 1] wTwoDates) :=
  pipeline_deterministic wTwoDates [1, 2] [2, 1] (by decide) (by decide)

end ORB
